import Mathlib

/-!
Verification of the `@missingcore/audio-metadata` tag parsers.

This file shallowly embeds the byte utilities, the streaming file reader
and the container parsers of the repository, and proves or refutes the
specification claims about them.  JavaScript machine arithmetic
(32-bit signed bitwise operators) is modelled explicitly on `Nat`/`Int`.
-/

namespace AudioMetadata

/-! ### JavaScript 32-bit arithmetic

The bitwise operators of JavaScript coerce their operands to 32-bit
integers.  `toUInt32Nat` is the residue of an integer modulo 2^32 and
`asInt32` reinterprets such a residue as a signed 32-bit value, exactly
as `ToInt32` does. -/

/-- Residue of an integer modulo 2^32 (JavaScript `ToUint32`). -/
def toUInt32Nat (i : Int) : Nat := (i % 4294967296).toNat

/-- Reinterpret a natural number modulo 2^32 as a signed 32-bit integer
(JavaScript `ToInt32`). -/
def asInt32 (n : Nat) : Int :=
  let m := n % 4294967296
  if m < 2147483648 then (m : Int) else (m : Int) - 4294967296

/-- JavaScript `a << s`: both operands pass through 32-bit coercion and
the shift count is taken modulo 32. -/
def jsShiftLeft (a : Int) (s : Nat) : Int :=
  asInt32 (toUInt32Nat a <<< (s % 32))

/-- JavaScript `a | b` on 32-bit coerced operands. -/
def jsOr (a b : Int) : Int :=
  asInt32 (toUInt32Nat a ||| toUInt32Nat b)

/-! ### `Buffer.bytesToInt`

`Buffer.bytesToInt(bytes, bitsUsed = 8, bigEndian = true)` reverses the
byte list in big-endian mode and then accumulates
`num |= byte << (idx * bitsUsed)` over it, starting from `0`.  The
accumulation uses the JavaScript 32-bit operators above. -/

/-- The `reduce` accumulation loop of `Buffer.bytesToInt`. -/
def bytesToIntAux (bitsUsed : Nat) : Nat → Int → List Nat → Int
  | _, acc, [] => acc
  | idx, acc, b :: rest =>
      bytesToIntAux bitsUsed (idx + 1) (jsOr acc (jsShiftLeft (Int.ofNat b) (idx * bitsUsed))) rest

/-- `Buffer.bytesToInt` from `src/src/utils/Buffer.ts`. -/
def bytesToInt (bytes : List Nat) (bitsUsed : Nat) (bigEndian : Bool) : Int :=
  bytesToIntAux bitsUsed 0 0 (if bigEndian then bytes.reverse else bytes)

/-- Value of a synchsafe byte list as the spec describes it: the top bit
of every byte is ignored and the remaining 7 bits are concatenated
big-endian. -/
def synchsafeValue (bytes : List Nat) : Nat :=
  bytes.foldl (fun acc b => acc * 128 + b % 128) 0

/-- Unsigned big-endian base-256 value of a byte list, as the spec
describes the default decoding mode. -/
def beBytesValue (bytes : List Nat) : Nat :=
  bytes.foldl (fun acc b => acc * 256 + b) 0

/-! Small collapsing lemmas: in the regime the parsers use (non-negative
values below 2^31, shift counts below 32) the JavaScript operators agree
with plain natural-number operations. -/

theorem toUInt32Nat_ofNat (n : Nat) (h : n < 4294967296) :
    toUInt32Nat (Int.ofNat n) = n := by
  unfold toUInt32Nat
  rw [show ((Int.ofNat n) % 4294967296) = Int.ofNat (n % 4294967296) from rfl]
  simp [Nat.mod_eq_of_lt h]

theorem asInt32_small (n : Nat) (h : n < 2147483648) :
    asInt32 n = Int.ofNat n := by
  unfold asInt32
  have h2 : n < 4294967296 := by omega
  simp [Nat.mod_eq_of_lt h2, h]

theorem jsOr_small (a b : Nat) (ha : a < 2147483648) (hb : b < 2147483648) :
    jsOr (Int.ofNat a) (Int.ofNat b) = Int.ofNat (a ||| b) := by
  unfold jsOr
  have h31 : (2147483648 : Nat) = 2 ^ 31 := by norm_num
  have hor : a ||| b < 2147483648 := by
    rw [h31] at ha hb ⊢
    exact Nat.or_lt_two_pow ha hb
  rw [toUInt32Nat_ofNat a (by omega), toUInt32Nat_ofNat b (by omega), asInt32_small _ hor]

theorem jsShiftLeft_small (b s : Nat) (hb : b < 4294967296) (hs : s < 32)
    (h : b <<< s < 2147483648) :
    jsShiftLeft (Int.ofNat b) s = Int.ofNat (b <<< s) := by
  unfold jsShiftLeft
  rw [toUInt32Nat_ofNat b hb, Nat.mod_eq_of_lt hs, asInt32_small _ h]

theorem lor_shift_add (x b k : Nat) (hx : x < 2 ^ k) :
    x ||| (b <<< k) = b <<< k + x := by
  rw [Nat.shiftLeft_eq, Nat.lor_comm, Nat.mul_comm b (2 ^ k),
    ← Nat.mul_add_lt_is_or hx b]

theorem synch_step (acc b k : Nat) (hacc : acc < 2 ^ k) (hb : b < 128) (hk : k ≤ 21) :
    jsOr (Int.ofNat acc) (jsShiftLeft (Int.ofNat b) k) = Int.ofNat (b * 2 ^ k + acc) := by
  have hpow : (2 : Nat) ^ k ≤ 2 ^ 21 := Nat.pow_le_pow_right (by norm_num) hk
  have hbs : b <<< k < 2147483648 := by
    rw [Nat.shiftLeft_eq]
    calc b * 2 ^ k ≤ 127 * 2 ^ 21 := Nat.mul_le_mul (by omega) hpow
      _ < 2147483648 := by norm_num
  rw [jsShiftLeft_small b k (by omega) (by omega) hbs,
    jsOr_small acc (b <<< k) (by omega) hbs,
    lor_shift_add acc b k hacc, Nat.shiftLeft_eq]

/-- C2 (amended): on genuinely synchsafe input — at most four bytes, every
byte below `0x80` — `bytesToInt` with 7 bits per byte returns the
big-endian concatenation of the low 7 bits of each byte. -/
theorem bytesToInt_synchsafe_of_valid (bytes : List Nat) (hlen : bytes.length ≤ 4)
    (hb : ∀ b ∈ bytes, b < 128) :
    bytesToInt bytes 7 true = Int.ofNat (synchsafeValue bytes) := by
  rcases bytes with _ | ⟨a, _ | ⟨b, _ | ⟨c, _ | ⟨d, _ | ⟨e, rest⟩⟩⟩⟩⟩
  · rfl
  · have ha := hb a (by simp)
    simp only [bytesToInt, List.reverse_cons, List.reverse_nil, List.nil_append,
      bytesToIntAux, synchsafeValue, List.foldl]
    rw [show (0 : Int) = Int.ofNat 0 from rfl,
      synch_step 0 a 0 (by norm_num) ha (by norm_num)]
    congr 1
    simp [synchsafeValue]
    omega
  · have ha := hb a (by simp); have hb2 := hb b (by simp)
    simp only [bytesToInt, List.reverse_cons, List.reverse_nil, List.nil_append,
      List.cons_append, bytesToIntAux, synchsafeValue, List.foldl]
    rw [show (0 : Int) = Int.ofNat 0 from rfl,
      show (0 * 7 : Nat) = 0 from rfl, show (1 * 7 : Nat) = 7 from rfl,
      synch_step 0 b 0 (by norm_num) hb2 (by norm_num),
      synch_step _ a 7 (by omega) ha (by norm_num)]
    congr 1
    have h1 : b % 128 = b := Nat.mod_eq_of_lt hb2
    have h2 : a % 128 = a := Nat.mod_eq_of_lt ha
    rw [h1, h2]; ring
  · have ha := hb a (by simp); have hb2 := hb b (by simp); have hc := hb c (by simp)
    simp only [bytesToInt, List.reverse_cons, List.reverse_nil, List.nil_append,
      List.cons_append, bytesToIntAux, synchsafeValue, List.foldl]
    rw [show (0 : Int) = Int.ofNat 0 from rfl,
      show (0 * 7 : Nat) = 0 from rfl, show (1 * 7 : Nat) = 7 from rfl,
      show (2 * 7 : Nat) = 14 from rfl,
      synch_step 0 c 0 (by norm_num) hc (by norm_num),
      synch_step _ b 7 (by omega) hb2 (by norm_num),
      synch_step _ a 14 (by nlinarith) ha (by norm_num)]
    congr 1
    have h1 : c % 128 = c := Nat.mod_eq_of_lt hc
    have h2 : b % 128 = b := Nat.mod_eq_of_lt hb2
    have h3 : a % 128 = a := Nat.mod_eq_of_lt ha
    rw [h1, h2, h3]; ring
  · have ha := hb a (by simp); have hb2 := hb b (by simp)
    have hc := hb c (by simp); have hd := hb d (by simp)
    simp only [bytesToInt, List.reverse_cons, List.reverse_nil, List.nil_append,
      List.cons_append, bytesToIntAux, synchsafeValue, List.foldl]
    rw [show (0 : Int) = Int.ofNat 0 from rfl,
      show (0 * 7 : Nat) = 0 from rfl, show (1 * 7 : Nat) = 7 from rfl,
      show (2 * 7 : Nat) = 14 from rfl, show (3 * 7 : Nat) = 21 from rfl,
      synch_step 0 d 0 (by norm_num) hd (by norm_num),
      synch_step _ c 7 (by omega) hc (by norm_num),
      synch_step _ b 14 (by nlinarith) hb2 (by norm_num),
      synch_step _ a 21 (by nlinarith) ha (by norm_num)]
    congr 1
    have h1 : d % 128 = d := Nat.mod_eq_of_lt hd
    have h2 : c % 128 = c := Nat.mod_eq_of_lt hc
    have h3 : b % 128 = b := Nat.mod_eq_of_lt hb2
    have h4 : a % 128 = a := Nat.mod_eq_of_lt ha
    rw [h1, h2, h3, h4]; ring
  · simp at hlen

/-- C2 (witness): the amended theorem evaluated on the four-byte synchsafe
integer `[0x00, 0x00, 0x02, 0x01]`, which decodes to 257. -/
theorem bytesToInt_synchsafe_of_valid_witness :
    bytesToInt [0, 0, 2, 1] 7 true = Int.ofNat (synchsafeValue [0, 0, 2, 1]) ∧
    synchsafeValue [0, 0, 2, 1] = 257 :=
  ⟨bytesToInt_synchsafe_of_valid [0, 0, 2, 1] (by decide) (by decide), by decide⟩

/-- C2 (counterexample): the claim quantifies over every byte list, but on
the single byte `0x80` the code returns 128 whereas the claim formula
(top bit ignored) yields 0: `bytesToInt` never masks the top bit. -/
theorem bytesToInt_synchsafe_topbit_counterexample :
    bytesToInt [128] 7 true = 128 ∧ synchsafeValue [128] = 0 ∧ (128 : Int) ≠ 0 := by
  refine ⟨?_, by decide, by decide⟩
  decide

/-- C3: the MP4 extended-size field `[0,0,0,1,0,0,0,0]` denotes 2^32, but
`bytesToInt` decodes it to 1 — JavaScript shift counts are taken modulo
32, so the four high bytes alias onto the four low bytes. -/
theorem bytesToInt_extended_size_failing :
    bytesToInt [0, 0, 0, 1, 0, 0, 0, 0] 8 true = 1 ∧ (1 : Int) ≠ 4294967296 := by
  exact ⟨by decide, by decide⟩

/-! ### Data model

The canonical tag keys, the JavaScript values a metadata map can hold,
and a model of JavaScript object literals as insertion-ordered
association lists with unique keys.  `objSet` is property assignment:
it updates an existing key in place and appends a fresh key. -/

/-- Canonical tag keys (`MetadataKey` in the source). -/
inductive TagKey
  | album | albumArtist | artist | artwork | name | track | year
deriving DecidableEq, Repr

/-- A value stored in a metadata map: a string, a number, or `undefined`. -/
inductive JSValue
  | str (s : String)
  | num (n : Int)
  | undef
deriving DecidableEq, Repr

/-- ID3v2.3/2.4 frame identifiers recognised by the reader. -/
inductive FrameId
  | TIT2 | TPE1 | TALB | TRCK | TYER | TDRC | APIC
deriving DecidableEq, Repr

/-- `FrameMetadataMap` from `src/src/readers/ID3v2Reader.ts`. -/
def frameMetadataMap : FrameId → TagKey
  | .TALB => .album
  | .TPE1 => .artist
  | .APIC => .artwork
  | .TIT2 => .name
  | .TRCK => .track
  | .TDRC => .year
  | .TYER => .year

/-- Property lookup on an object modelled as an association list. -/
def lookupKey {α β : Type} [DecidableEq α] (k : α) : List (α × β) → Option β
  | [] => none
  | p :: rest => if p.1 = k then some p.2 else lookupKey k rest

/-- JavaScript property assignment `o[k] = v`: overwrite in place when the
key exists, append otherwise. -/
def objSet {α β : Type} [DecidableEq α] (o : List (α × β)) (k : α) (v : β) :
    List (α × β) :=
  if k ∈ o.map Prod.fst then
    o.map (fun p => if p.1 = k then (k, v) else p)
  else o ++ [(k, v)]

/-- `Object.fromEntries`: assign the pairs left to right into a fresh
object. -/
def fromEntries {α β : Type} [DecidableEq α] (l : List (α × β)) : List (α × β) :=
  l.foldl (fun o p => objSet o p.1 p.2) []

/-! ### String helpers mirroring the JavaScript primitives used -/

/-- `string.split(c)` on a character list. -/
def splitOnChar (c : Char) : List Char → List (List Char)
  | [] => [[]]
  | x :: rest =>
      let r := splitOnChar c rest
      if x = c then [] :: r else (x :: r.headD []) :: r.tail

/-- Strip leading and trailing whitespace, as `Number` does before
parsing. -/
def jsTrimList (l : List Char) : List Char :=
  ((l.dropWhile Char.isWhitespace).reverse.dropWhile Char.isWhitespace).reverse

/-- Decimal value of a digit list. -/
def digitsToNat (ds : List Char) : Nat :=
  ds.foldl (fun a c => a * 10 + (c.toNat - 48)) 0

/-- JavaScript `Number(s)` on the fragment of strings the tag fields use:
the empty (or all-whitespace) string is 0, an optionally signed run of
decimal digits is its value, and anything else is `NaN` (`none`).
Fractional, exponent, hexadecimal and `Infinity` forms are outside this
fragment. -/
def jsNumber (s : String) : Option Int :=
  match jsTrimList s.toList with
  | [] => some 0
  | '-' :: ds =>
      if ds ≠ [] ∧ ds.all Char.isDigit then some (-(digitsToNat ds : Int)) else none
  | '+' :: ds =>
      if ds ≠ [] ∧ ds.all Char.isDigit then some ((digitsToNat ds : Int)) else none
  | ds => if ds.all Char.isDigit then some ((digitsToNat ds : Int)) else none

/-! ### Track and year normalisation

The formatting step shared by the FLAC, ID3v2 and MP4 readers
(`FLACReader.getMetadata`, `ID3v2Reader.getMetadata`,
`FileReader.formatMetadata`): `track` is `Number(value.split('/')[0])`,
`year` is `Number(value.slice(0, 4))`, and the number is kept only when
it is truthy and not `NaN`; otherwise the raw string is kept. -/

/-- The candidate numeric value (`valAsNum`) for a tag entry. -/
def rawNumericCandidate (k : TagKey) (v : String) : Option Int :=
  if k = TagKey.track then jsNumber (String.mk ((splitOnChar '/' v.toList).headD []))
  else if k = TagKey.year then jsNumber (String.mk (v.toList.take 4))
  else none

/-- One entry of the metadata formatting map:
`valAsNum && !isNaN(valAsNum) ? valAsNum : value`. -/
def convertTagValue (k : TagKey) (v : String) : JSValue :=
  match rawNumericCandidate k v with
  | some n => if n = 0 then JSValue.str v else JSValue.num n
  | none => JSValue.str v

/-- The same conversion when the stored raw value may be `undefined`
(`value?.split`, `value?.slice`): `Number(undefined)` is `NaN`, so the
entry stays `undefined`. -/
def convertTagOpt (k : TagKey) : Option String → JSValue
  | none => JSValue.undef
  | some v => convertTagValue k v

/-- `FileReader.formatMetadata`: seed every wanted key with `undefined`,
then assign the found tags restricted to the wanted keys, converting
`track` and `year`. -/
def formatMetadata (wantedTags : List TagKey) (tags : List (TagKey × Option String)) :
    List (TagKey × JSValue) :=
  fromEntries (wantedTags.map (fun k => (k, JSValue.undef)) ++
    (tags.filter (fun p => decide (p.1 ∈ wantedTags))).map
      (fun p => (p.1, convertTagOpt p.1 p.2)))

/-- Result assembly of `ID3v2Reader.getMetadata`: map each stored frame to
its canonical key, convert `track`/`year`, and build the object — with no
seeding of requested-but-missing keys. -/
def id3v2Metadata (frames : List (FrameId × String)) : List (TagKey × JSValue) :=
  fromEntries (frames.map
    (fun p => (frameMetadataMap p.1, convertTagValue (frameMetadataMap p.1) p.2)))

/-- Frame storage of `ID3v2Reader.processTextFrame`:
`this.frames[frameId] = value` — plain assignment, no first-wins guard. -/
def id3v2StoreTextFrame (frames : List (FrameId × String)) (fid : FrameId) (v : String) :
    List (FrameId × String) :=
  objSet frames fid v

/-- Year field of `ID3v1Reader.processData`:
`Number(string) || undefined`. -/
def id3v1Year (s : String) : Option Int :=
  match jsNumber s with
  | none => none
  | some n => if n = 0 then none else some n

/-! Key-set lemmas about the object model. -/

theorem objSet_keys_of_mem {α β : Type} [DecidableEq α] (o : List (α × β)) (k : α) (v : β)
    (h : k ∈ o.map Prod.fst) :
    (objSet o k v).map Prod.fst = o.map Prod.fst := by
  unfold objSet
  rw [if_pos h, List.map_map]
  apply List.map_congr_left
  intro p _
  by_cases hp : p.1 = k
  · simp [hp]
  · simp [hp]

theorem objSet_keys_of_not_mem {α β : Type} [DecidableEq α] (o : List (α × β)) (k : α) (v : β)
    (h : k ∉ o.map Prod.fst) :
    (objSet o k v).map Prod.fst = o.map Prod.fst ++ [k] := by
  unfold objSet
  rw [if_neg h]
  simp

theorem foldl_objSet_keys_fresh {α β : Type} [DecidableEq α] :
    ∀ (ks : List α) (f : α → β) (o : List (α × β)), ks.Nodup →
      (∀ k ∈ ks, k ∉ o.map Prod.fst) →
      ((ks.map (fun k => (k, f k))).foldl (fun o p => objSet o p.1 p.2) o).map Prod.fst
        = o.map Prod.fst ++ ks := by
  intro ks
  induction ks with
  | nil => intro f o _ _; simp
  | cons k ks ih =>
      intro f o hnd hfresh
      simp only [List.map_cons, List.foldl_cons]
      have hk : k ∉ o.map Prod.fst := hfresh k (by simp)
      have hkeys := objSet_keys_of_not_mem o k (f k) hk
      rw [ih f (objSet o k (f k)) (List.Nodup.of_cons hnd)]
      · rw [hkeys]; simp
      · intro k2 hk2
        rw [hkeys]
        simp only [List.mem_append, List.mem_singleton]
        rintro (h1 | h2)
        · exact hfresh k2 (by simp [hk2]) h1
        · rw [h2] at hk2
          exact (List.nodup_cons.mp hnd).1 hk2

theorem foldl_objSet_keys_present {α β : Type} [DecidableEq α] :
    ∀ (l : List (α × β)) (o : List (α × β)),
      (∀ p ∈ l, p.1 ∈ o.map Prod.fst) →
      (l.foldl (fun o p => objSet o p.1 p.2) o).map Prod.fst = o.map Prod.fst := by
  intro l
  induction l with
  | nil => intro o _; simp
  | cons p l ih =>
      intro o hmem
      simp only [List.foldl_cons]
      have hp : p.1 ∈ o.map Prod.fst := hmem p (by simp)
      have hkeys := objSet_keys_of_mem o p.1 p.2 hp
      rw [ih (objSet o p.1 p.2) ?_, hkeys]
      intro q hq
      rw [hkeys]
      exact hmem q (by simp [hq])

/-- C4 (amended): a metadata map built through `FileReader.formatMetadata`
has exactly the requested keys, in request order: every requested key is
present (missing ones with an undefined value) and no other key appears. -/
theorem formatMetadata_keys_exact (wanted : List TagKey)
    (tags : List (TagKey × Option String)) (h : wanted.Nodup) :
    (formatMetadata wanted tags).map Prod.fst = wanted := by
  unfold formatMetadata fromEntries
  rw [List.foldl_append]
  rw [foldl_objSet_keys_present _ _ ?_]
  · rw [foldl_objSet_keys_fresh wanted _ [] h (by simp)]
    simp
  · intro p hp
    rw [foldl_objSet_keys_fresh wanted _ [] h (by simp)]
    simp only [List.map_nil, List.nil_append]
    simp only [List.mem_map] at hp
    obtain ⟨q, hq, hpq⟩ := hp
    simp only [List.mem_filter, decide_eq_true_eq] at hq
    rw [← hpq]
    exact hq.2

/-- C4 (witness): the amended theorem evaluated on the request
`[album, artwork]` with only an album tag found. -/
theorem formatMetadata_keys_exact_witness :
    List.Nodup [TagKey.album, TagKey.artwork] ∧
    (formatMetadata [TagKey.album, TagKey.artwork]
        [(TagKey.album, some "Void")]).map Prod.fst = [TagKey.album, TagKey.artwork] :=
  ⟨by decide, formatMetadata_keys_exact [TagKey.album, TagKey.artwork]
    [(TagKey.album, some "Void")] (by decide)⟩

/-- C4 (counterexample): the ID3v2 reader builds its map from the found
frames only; with `album` and `artist` requested but only a `TPE1` frame
found, the requested key `album` is absent from the returned map. -/
theorem id3v2Metadata_missing_requested_key :
    lookupKey TagKey.album (id3v2Metadata [(FrameId.TPE1, "Nothing")]) = none ∧
    TagKey.album ∈ [TagKey.album, TagKey.artist] :=
  ⟨by decide, by decide⟩

/-- C5 (counterexample): the raw track string `"-5"` parses to the finite
but negative number −5; the claim demands the raw string be preserved,
yet the code produces the numeric value −5. -/
theorem convertTagValue_negative_track :
    convertTagValue TagKey.track "-5" = JSValue.num (-5) ∧
    convertTagValue TagKey.track "-5" ≠ JSValue.str "-5" ∧ ¬(0 < (-5 : Int)) := by
  refine ⟨by decide, by decide, by decide⟩

/-- C5 (amended): in the shared formatting path a `track`/`year` entry is
numeric exactly when `Number` of the relevant fragment (track: segment
before a `/`; year: first four characters) is a number other than 0 —
negative values included — and in every other case the raw string is
preserved unchanged; the ID3v1 reader instead coerces its year with
`Number(...) || undefined`, so it never preserves a raw year string. -/
theorem tag_normalisation_characterisation :
    (∀ k v, convertTagValue k v = JSValue.str v ∨
      ∃ n, n ≠ 0 ∧ convertTagValue k v = JSValue.num n ∧ rawNumericCandidate k v = some n) ∧
    (∀ v n, convertTagValue TagKey.track v = JSValue.num n ↔
      jsNumber (String.mk ((splitOnChar '/' v.toList).headD [])) = some n ∧ n ≠ 0) ∧
    (∀ v n, convertTagValue TagKey.year v = JSValue.num n ↔
      jsNumber (String.mk (v.toList.take 4)) = some n ∧ n ≠ 0) ∧
    (∀ s, id3v1Year s = none ∨ ∃ n, n ≠ 0 ∧ id3v1Year s = some n) ∧
    id3v1Year "abcd" = none := by
  refine ⟨?_, ?_, ?_, ?_, by decide⟩
  · intro k v
    cases h : rawNumericCandidate k v with
    | none => left; simp [convertTagValue, h]
    | some n =>
        by_cases hn : n = 0
        · left; simp [convertTagValue, h, hn]
        · right
          refine ⟨n, hn, ?_, rfl⟩
          simp [convertTagValue, h, hn]
  · intro v n
    have hr : rawNumericCandidate TagKey.track v
        = jsNumber (String.mk ((splitOnChar '/' v.toList).headD [])) := by
      simp [rawNumericCandidate]
    constructor
    · intro h
      cases hjs : jsNumber (String.mk ((splitOnChar '/' v.toList).headD [])) with
      | none => rw [convertTagValue, hr, hjs] at h; simp at h
      | some m =>
          rw [convertTagValue, hr, hjs] at h
          dsimp only at h
          by_cases hm : m = 0
          · rw [if_pos hm] at h; simp at h
          · rw [if_neg hm] at h
            simp only [JSValue.num.injEq] at h
            exact ⟨by rw [h], by omega⟩
    · rintro ⟨h1, h2⟩
      rw [convertTagValue, hr, h1]
      dsimp only
      rw [if_neg h2]
  · intro v n
    have hr : rawNumericCandidate TagKey.year v
        = jsNumber (String.mk (v.toList.take 4)) := by
      simp [rawNumericCandidate]
    constructor
    · intro h
      cases hjs : jsNumber (String.mk (v.toList.take 4)) with
      | none => rw [convertTagValue, hr, hjs] at h; simp at h
      | some m =>
          rw [convertTagValue, hr, hjs] at h
          dsimp only at h
          by_cases hm : m = 0
          · rw [if_pos hm] at h; simp at h
          · rw [if_neg hm] at h
            simp only [JSValue.num.injEq] at h
            exact ⟨by rw [h], by omega⟩
    · rintro ⟨h1, h2⟩
      rw [convertTagValue, hr, h1]
      dsimp only
      rw [if_neg h2]
  · intro s
    cases h : jsNumber s with
    | none => left; simp [id3v1Year, h]
    | some n =>
        by_cases hn : n = 0
        · left; simp [id3v1Year, h, hn]
        · right; exact ⟨n, hn, by simp [id3v1Year, h, hn]⟩

/-! ### FLAC Vorbis comment storage

`FLACReader.processVorbisCommentBlockData` splits each comment on `=`,
maps the field name through `BlockMetadataMap`, and stores the value only
when the key is wanted and not already stored (first occurrence wins). -/

/-- `BlockMetadataMap` of `src/src/readers/FLACReader.ts`. -/
def vorbisFieldKey (s : String) : Option TagKey :=
  if s = "ALBUM" then some TagKey.album
  else if s = "ARTIST" then some TagKey.artist
  else if s = "PICTURE" then some TagKey.artwork
  else if s = "TITLE" then some TagKey.name
  else if s = "TRACKNUMBER" then some TagKey.track
  else if s = "DATE" then some TagKey.year
  else if s = "ORIGINALDATE" then some TagKey.year
  else if s = "ORIGINALYEAR" then some TagKey.year
  else none

/-- Split a comment into field name and value
(`const [txtKey, value] = comment.split('=')`); the value is `undefined`
when the comment has no `=`. -/
def vorbisParse (c : String) : Option (TagKey × Option String) :=
  match vorbisFieldKey (String.mk ((splitOnChar '=' c.toList).headD [])) with
  | none => none
  | some k => some (k, ((splitOnChar '=' c.toList)[1]?).map String.mk)

/-- The guard `this.frames[metaKey] === undefined`: true when the key is
absent or stores an undefined value. -/
def vorbisStoredUndefined (frames : List (TagKey × Option String)) (k : TagKey) : Bool :=
  match lookupKey k frames with
  | some (some _) => false
  | _ => true

/-- One iteration of the comment loop in
`processVorbisCommentBlockData`. -/
def vorbisStep (wanted : List TagKey) (frames : List (TagKey × Option String))
    (c : String) : List (TagKey × Option String) :=
  match vorbisParse c with
  | none => frames
  | some (k, v) =>
      if k ∈ wanted ∧ vorbisStoredUndefined frames k = true then objSet frames k v
      else frames

/-- The whole comment loop of `processVorbisCommentBlockData`. -/
def processVorbisComments (wanted : List TagKey) (frames : List (TagKey × Option String))
    (comments : List String) : List (TagKey × Option String) :=
  comments.foldl (vorbisStep wanted) frames

/-- Claim-side selector: the value a comment contributes to the key `k`
when requested. -/
def commentSelect (wanted : List TagKey) (k : TagKey) (c : String) : Option (Option String) :=
  match vorbisParse c with
  | some (k2, v) => if k2 = k ∧ k ∈ wanted then some v else none
  | none => none

/-- Claim-side value: the value of the first comment naming the key `k`. -/
def firstWantedComment (wanted : List TagKey) (k : TagKey) (comments : List String) :
    Option (Option String) :=
  (comments.filterMap (commentSelect wanted k)).head?

/-! Lookup lemmas for property assignment. -/

theorem lookupKey_append_right {α β : Type} [DecidableEq α] (k : α) :
    ∀ (o l2 : List (α × β)), k ∉ o.map Prod.fst →
      lookupKey k (o ++ l2) = lookupKey k l2 := by
  intro o
  induction o with
  | nil => intro l2 _; simp
  | cons p o ih =>
      intro l2 h
      simp only [List.map_cons, List.mem_cons] at h
      push_neg at h
      simp only [List.cons_append, lookupKey]
      rw [if_neg (fun hh => h.1 hh.symm)]
      exact ih l2 h.2

theorem lookupKey_append_single_other {α β : Type} [DecidableEq α] (k k2 : α) (v : β)
    (hne : k ≠ k2) :
    ∀ (o : List (α × β)), lookupKey k2 (o ++ [(k, v)]) = lookupKey k2 o := by
  intro o
  induction o with
  | nil => simp [lookupKey, hne]
  | cons p o ih =>
      simp only [List.cons_append, lookupKey]
      by_cases hp2 : p.1 = k2
      · rw [if_pos hp2, if_pos hp2]
      · rw [if_neg hp2, if_neg hp2]
        exact ih

theorem lookupKey_update_mem {α β : Type} [DecidableEq α] (k : α) (v : β) :
    ∀ (o : List (α × β)), k ∈ o.map Prod.fst →
      lookupKey k (o.map (fun p => if p.1 = k then (k, v) else p)) = some v := by
  intro o
  induction o with
  | nil => intro h; simp at h
  | cons p o ih =>
      intro hmem
      rw [List.map_cons]
      by_cases hp : p.1 = k
      · simp [lookupKey, hp]
      · rw [if_neg hp]
        simp only [lookupKey, if_neg hp]
        apply ih
        simp only [List.map_cons, List.mem_cons] at hmem
        rcases hmem with h1 | h2
        · exact absurd h1.symm hp
        · exact h2

theorem lookupKey_update_other {α β : Type} [DecidableEq α] (k k2 : α) (v : β)
    (hne : k ≠ k2) :
    ∀ (o : List (α × β)),
      lookupKey k2 (o.map (fun p => if p.1 = k then (k, v) else p)) = lookupKey k2 o := by
  intro o
  induction o with
  | nil => simp
  | cons p o ih =>
      rw [List.map_cons]
      by_cases hp : p.1 = k
      · rw [if_pos hp]
        simp only [lookupKey]
        rw [if_neg hne, if_neg (by rw [hp]; exact hne)]
        exact ih
      · rw [if_neg hp]
        simp only [lookupKey]
        by_cases hp2 : p.1 = k2
        · rw [if_pos hp2, if_pos hp2]
        · rw [if_neg hp2, if_neg hp2]
          exact ih

theorem lookupKey_objSet_self {α β : Type} [DecidableEq α] (k : α) (v : β)
    (o : List (α × β)) : lookupKey k (objSet o k v) = some v := by
  unfold objSet
  split
  · exact lookupKey_update_mem k v o (by assumption)
  · rw [lookupKey_append_right k o [(k, v)] (by assumption)]
    simp [lookupKey]

theorem lookupKey_objSet_other {α β : Type} [DecidableEq α] (k k2 : α) (v : β)
    (hne : k ≠ k2) (o : List (α × β)) :
    lookupKey k2 (objSet o k v) = lookupKey k2 o := by
  unfold objSet
  split
  · exact lookupKey_update_other k k2 v hne o
  · exact lookupKey_append_single_other k k2 v hne o

theorem vorbisParse_value_isSome (c : String) (k2 : TagKey) (v : Option String)
    (h : vorbisParse c = some (k2, v)) (hlen : 2 ≤ (splitOnChar '=' c.toList).length) :
    ∃ s, v = some s := by
  unfold vorbisParse at h
  cases hk : vorbisFieldKey (String.mk ((splitOnChar '=' c.toList).headD [])) with
  | none => rw [hk] at h; simp at h
  | some k3 =>
      rw [hk] at h
      simp only [Option.some.injEq, Prod.mk.injEq] at h
      have hlt : 1 < (splitOnChar '=' c.toList).length := by omega
      have hget := List.getElem?_eq_getElem hlt
      exact ⟨String.mk ((splitOnChar '=' c.toList)[1]), by rw [← h.2, hget]; rfl⟩

theorem vorbis_first_aux :
    ∀ (comments : List String) (wanted : List TagKey)
      (frames : List (TagKey × Option String)) (k : TagKey),
      (∀ c ∈ comments, 2 ≤ (splitOnChar '=' c.toList).length) →
      (lookupKey k frames = none →
        lookupKey k (processVorbisComments wanted frames comments)
          = firstWantedComment wanted k comments) ∧
      (∀ v, lookupKey k frames = some (some v) →
        lookupKey k (processVorbisComments wanted frames comments) = some (some v)) := by
  intro comments
  induction comments with
  | nil =>
      intro wanted frames k _
      exact ⟨fun h => by simpa [processVorbisComments, firstWantedComment] using h,
        fun v h => by simpa [processVorbisComments] using h⟩
  | cons c cs ih =>
      intro wanted frames k hwf
      have hc := hwf c (by simp)
      have hcs : ∀ c2 ∈ cs, 2 ≤ (splitOnChar '=' c2.toList).length :=
        fun c2 h2 => hwf c2 (by simp [h2])
      have hfold : processVorbisComments wanted frames (c :: cs)
          = processVorbisComments wanted (vorbisStep wanted frames c) cs := by
        simp [processVorbisComments]
      cases hp : vorbisParse c with
      | none =>
          have hstep : vorbisStep wanted frames c = frames := by
            simp [vorbisStep, hp]
          have hfw : firstWantedComment wanted k (c :: cs) = firstWantedComment wanted k cs := by
            simp [firstWantedComment, List.filterMap_cons, commentSelect, hp]
          rw [hfold, hstep, hfw]
          exact ih wanted frames k hcs
      | some kv =>
          obtain ⟨k2, v⟩ := kv
          obtain ⟨str, hstr⟩ := vorbisParse_value_isSome c k2 v hp hc
          subst hstr
          constructor
          · intro hnone
            by_cases hkk : k2 = k
            · subst hkk
              by_cases hw : k2 ∈ wanted
              · have hcond : k2 ∈ wanted ∧ vorbisStoredUndefined frames k2 = true := by
                  refine ⟨hw, ?_⟩
                  simp [vorbisStoredUndefined, hnone]
                have hstep : vorbisStep wanted frames c = objSet frames k2 (some str) := by
                  simp only [vorbisStep, hp]
                  rw [if_pos hcond]
                have hfw : firstWantedComment wanted k2 (c :: cs) = some (some str) := by
                  simp [firstWantedComment, List.filterMap_cons, commentSelect, hp, hw]
                rw [hfold, hstep, hfw]
                have hlk : lookupKey k2 (objSet frames k2 (some str)) = some (some str) :=
                  lookupKey_objSet_self k2 (some str) frames
                exact (ih wanted (objSet frames k2 (some str)) k2 hcs).2 str hlk
              · have hstep : vorbisStep wanted frames c = frames := by
                  simp only [vorbisStep, hp]
                  rw [if_neg (fun hh => hw hh.1)]
                have hfw : firstWantedComment wanted k2 (c :: cs)
                    = firstWantedComment wanted k2 cs := by
                  simp [firstWantedComment, List.filterMap_cons, commentSelect, hp, hw]
                rw [hfold, hstep, hfw]
                exact (ih wanted frames k2 hcs).1 hnone
            · have hfw : firstWantedComment wanted k (c :: cs)
                  = firstWantedComment wanted k cs := by
                simp [firstWantedComment, List.filterMap_cons, commentSelect, hp, hkk]
              have hlk : lookupKey k (vorbisStep wanted frames c) = none := by
                simp only [vorbisStep, hp]
                split
                · rw [lookupKey_objSet_other k2 k (some str) hkk frames]
                  exact hnone
                · exact hnone
              rw [hfold, hfw]
              exact (ih wanted (vorbisStep wanted frames c) k hcs).1 hlk
          · intro v0 hv0
            have hlk : lookupKey k (vorbisStep wanted frames c) = some (some v0) := by
              by_cases hkk : k2 = k
              · subst hkk
                have hcond : ¬(k2 ∈ wanted ∧ vorbisStoredUndefined frames k2 = true) := by
                  rintro ⟨_, habs⟩
                  simp [vorbisStoredUndefined, hv0] at habs
                simp only [vorbisStep, hp]
                rw [if_neg hcond]
                exact hv0
              · simp only [vorbisStep, hp]
                split
                · rw [lookupKey_objSet_other k2 k (some str) hkk frames]
                  exact hv0
                · exact hv0
            rw [hfold]
            exact (ih wanted (vorbisStep wanted frames c) k hcs).2 v0 hlk

/-- C6 (amended): for FLAC Vorbis comments the first occurrence of a field
wins — the stored value for a key is the value of the first well-formed
comment naming it; the ID3v2 reader, in contrast, stores frames by plain
assignment, so a repeated frame id overwrites the earlier value. -/
theorem vorbis_first_occurrence_wins (wanted : List TagKey) (comments : List String)
    (k : TagKey) (hwf : ∀ c ∈ comments, 2 ≤ (splitOnChar '=' c.toList).length) :
    lookupKey k (processVorbisComments wanted [] comments)
      = firstWantedComment wanted k comments :=
  (vorbis_first_aux comments wanted [] k hwf).1 rfl

/-- C6 (witness): the amended theorem evaluated on two repeated
`ARTIST=` comments — the first value `"A"` is kept. -/
theorem vorbis_first_occurrence_wins_witness :
    (∀ c ∈ ["ARTIST=A", "ARTIST=B"], 2 ≤ (splitOnChar '=' c.toList).length) ∧
    lookupKey TagKey.artist
        (processVorbisComments [TagKey.artist] [] ["ARTIST=A", "ARTIST=B"])
      = firstWantedComment [TagKey.artist] TagKey.artist ["ARTIST=A", "ARTIST=B"] ∧
    firstWantedComment [TagKey.artist] TagKey.artist ["ARTIST=A", "ARTIST=B"]
      = some (some "A") :=
  ⟨by decide, vorbis_first_occurrence_wins [TagKey.artist] ["ARTIST=A", "ARTIST=B"]
    TagKey.artist (by decide), by decide⟩

/-- C6 (counterexample): two `TPE1` text frames processed by the ID3v2
reader — the second assignment overwrites the first, so the returned
artist is `"B"`, not the first occurrence `"A"`. -/
theorem id3v2_repeated_frame_overwrites :
    id3v2Metadata
        (id3v2StoreTextFrame (id3v2StoreTextFrame [] FrameId.TPE1 "A") FrameId.TPE1 "B")
      = [(TagKey.artist, JSValue.str "B")] ∧
    JSValue.str "B" ≠ JSValue.str "A" :=
  ⟨by decide, by decide⟩

/-! ### Public dispatch

`getAudioMetadata` in `src/src/MetadataExtractor.ts` takes the final
segment of the URI split on `.` and compares it, case-sensitively,
against `flac` and `mp3`; everything else throws a `FileError` naming
the extension. -/

/-- The parser selected by the dispatcher. -/
inductive AudioParser
  | flac | mp3
deriving DecidableEq, Repr

/-- The extension extraction of `getAudioMetadata`:
`uri.split('.').at(-1)`. -/
def getUriExtension (uri : String) : List Char :=
  (splitOnChar '.' uri.toList).getLastD []

/-- The dispatch of `getAudioMetadata` (lines 15 through 24 of
`src/src/MetadataExtractor.ts`). -/
def getAudioMetadataDispatch (uri : String) : Except String AudioParser :=
  let extension := getUriExtension uri
  if extension = "flac".toList then Except.ok AudioParser.flac
  else if extension = "mp3".toList then Except.ok AudioParser.mp3
  else Except.error ("`." ++ String.mk extension ++ "` files are currently not supported.")

/-- C1: the dispatcher rejects `.m4a` (and uppercase `.MP3`) even though
the test suite of the repository expects `.m4a`/`.mp4` files to be parsed
by the MP4 reader: only lowercase `flac`/`mp3` are dispatched. -/
theorem dispatch_m4a_unsupported :
    getAudioMetadataDispatch "./test-audio/AAC/m4a.m4a"
      = Except.error "`.m4a` files are currently not supported." ∧
    getAudioMetadataDispatch "music.MP3"
      = Except.error "`.MP3` files are currently not supported." := by
  exact ⟨rfl, rfl⟩

/-! ### Base64 encoding (`Buffer.bytesToBase64` via `btoa`) -/

/-- The 64 base64 digits. -/
def base64Alphabet : List Char :=
  "ABCDEFGHIJKLMNOPQRSTUVWXYZabcdefghijklmnopqrstuvwxyz0123456789+/".toList

/-- Digit lookup, with the padding character as out-of-range default. -/
def base64CharOf (n : Nat) : Char := base64Alphabet.getD n '='

/-- Standard base64 of a byte list, processed three bytes at a time with
`=` padding, as `btoa` produces. -/
def b64Chunks : List Nat → List Char
  | [] => []
  | [b1] => [base64CharOf (b1 / 4), base64CharOf (b1 % 4 * 16), '=', '=']
  | [b1, b2] => [base64CharOf (b1 / 4), base64CharOf (b1 % 4 * 16 + b2 / 16),
      base64CharOf (b2 % 16 * 4), '=']
  | b1 :: b2 :: b3 :: rest =>
      base64CharOf (b1 / 4) :: base64CharOf (b1 % 4 * 16 + b2 / 16)
        :: base64CharOf (b2 % 16 * 4 + b3 / 64) :: base64CharOf (b3 % 64) :: b64Chunks rest

/-- `Buffer.bytesToBase64`. -/
def bytesToBase64 (bytes : List Nat) : String := String.mk (b64Chunks bytes)

theorem base64CharOf_ok (n : Nat) :
    base64CharOf n ∈ base64Alphabet ∨ base64CharOf n = '=' := by
  unfold base64CharOf
  by_cases h : n < base64Alphabet.length
  · left
    rw [List.getD_eq_getElem base64Alphabet '=' h]
    exact List.getElem_mem h
  · right
    unfold List.getD
    rw [List.get?_eq_none.mpr (by omega)]
    rfl

theorem b64Chunks_ok (bytes : List Nat) :
    ∀ ch ∈ b64Chunks bytes, ch ∈ base64Alphabet ∨ ch = '=' := by
  induction bytes using b64Chunks.induct with
  | case1 => intro ch h; simp [b64Chunks] at h
  | case2 b1 =>
      intro ch h
      simp only [b64Chunks, List.mem_cons, List.not_mem_nil, or_false] at h
      rcases h with h | h | h | h <;> subst h
      · exact base64CharOf_ok _
      · exact base64CharOf_ok _
      · right; rfl
      · right; rfl
  | case3 b1 b2 =>
      intro ch h
      simp only [b64Chunks, List.mem_cons, List.not_mem_nil, or_false] at h
      rcases h with h | h | h | h <;> subst h
      · exact base64CharOf_ok _
      · exact base64CharOf_ok _
      · exact base64CharOf_ok _
      · right; rfl
  | case4 b1 b2 b3 rest ih =>
      intro ch h
      simp only [b64Chunks, List.mem_cons] at h
      rcases h with h | h | h | h | h
      · subst h; exact base64CharOf_ok _
      · subst h; exact base64CharOf_ok _
      · subst h; exact base64CharOf_ok _
      · subst h; exact base64CharOf_ok _
      · exact ih ch h

theorem b64Chunks_ne_nil (bytes : List Nat) (h : bytes ≠ []) :
    b64Chunks bytes ≠ [] := by
  match bytes with
  | [] => exact absurd rfl h
  | [b1] => simp [b64Chunks]
  | [b1, b2] => simp [b64Chunks]
  | b1 :: b2 :: b3 :: rest => simp [b64Chunks]

/-! ### Artwork construction -/

/-- ISO-8859-1 decoding of a byte list to a string: each byte below the
first NUL becomes the code point of that value (`_bytesToStr` with
`String.fromCharCode`). -/
def bytesToStr : List Nat → List Nat
  | [] => []
  | b :: rest => if b = 0 then [] else b :: bytesToStr rest

/-- String form of the ISO-8859-1 decoding, used for MIME types. -/
def bytesToStringISO (bytes : List Nat) : String :=
  String.mk ((bytesToStr bytes).map Char.ofNat)

/-! `FLACReader.processPictureBlockData` parses, in sequence: a 4-byte
picture type, a length-prefixed MIME string, a length-prefixed
description (skipped), 16 bytes of dimensions (skipped), and the
length-prefixed picture data.  The cursor positions are expressed as
nested `drop`s. -/

/-- The 4-byte MIME length field of a FLAC picture block. -/
def flacMimeLength (d : List Nat) : Int := bytesToInt ((d.drop 4).take 4) 8 true

/-- The MIME string of a FLAC picture block. -/
def flacMime (d : List Nat) : String :=
  bytesToStringISO (((d.drop 4).drop 4).take (flacMimeLength d).toNat)

/-- Remaining bytes after the MIME string. -/
def flacAfterMime (d : List Nat) : List Nat :=
  ((d.drop 4).drop 4).drop (flacMimeLength d).toNat

/-- The 4-byte description length field. -/
def flacDescriptionLength (d : List Nat) : Int :=
  bytesToInt ((flacAfterMime d).take 4) 8 true

/-- Remaining bytes after skipping the description and the 16 bytes of
image dimensions. -/
def flacAfterInfo (d : List Nat) : List Nat :=
  (((flacAfterMime d).drop 4).drop (flacDescriptionLength d).toNat).drop 16

/-- The 4-byte picture length field. -/
def flacPictureLength (d : List Nat) : Int :=
  bytesToInt ((flacAfterInfo d).take 4) 8 true

/-- The picture payload bytes. -/
def flacPictureBytes (d : List Nat) : List Nat :=
  ((flacAfterInfo d).drop 4).take (flacPictureLength d).toNat

/-- `FLACReader.processPictureBlockData`: only picture types 0 and 3
produce an artwork value, assembled as `data:<mime>;base64,<payload>`. -/
def flacProcessPicture (blockData : List Nat) : Option String :=
  if bytesToInt (blockData.take 4) 8 true ≠ 0 ∧ bytesToInt (blockData.take 4) 8 true ≠ 3 then
    none
  else
    some ("data:" ++ flacMime blockData ++ ";base64," ++
      bytesToBase64 (flacPictureBytes blockData))

/-- The `covr` branch of `MP4Reader.processItemDataAtom`: the MIME type is
`image/png` when the flag is 14 and `image/jpeg` otherwise. -/
def mp4CovrValue (flag : Int) (payload : List Nat) : String :=
  "data:image/" ++ (if flag = 14 then "png" else "jpeg") ++ ";base64," ++ bytesToBase64 payload

/-- Remove an expected prefix from a list, or fail. -/
def stripPrefixList {α : Type} [DecidableEq α] : List α → List α → Option (List α)
  | [], l => some l
  | _ :: _, [] => none
  | a :: as, b :: bs => if a = b then stripPrefixList as bs else none

/-- The spec regex `^data:image/(png|jpeg);base64,[A-Za-z0-9+/=]+$` as a
decidable predicate. -/
def matchesArtworkRegex (s : String) : Bool :=
  match stripPrefixList "data:image/png;base64,".toList s.toList with
  | some r => !r.isEmpty && r.all (fun ch => decide (ch ∈ base64Alphabet ∨ ch = '='))
  | none =>
    match stripPrefixList "data:image/jpeg;base64,".toList s.toList with
    | some r => !r.isEmpty && r.all (fun ch => decide (ch ∈ base64Alphabet ∨ ch = '='))
    | none => false

theorem stripPrefixList_append {α : Type} [DecidableEq α] :
    ∀ (p l : List α), stripPrefixList p (p ++ l) = some l := by
  intro p
  induction p with
  | nil => intro l; rfl
  | cons a as ih =>
      intro l
      simp only [List.cons_append, stripPrefixList, if_pos rfl]
      exact ih l

/-! Key uniqueness of assembled metadata maps: property assignment
updates an existing key in place, so an object built by `fromEntries`
never carries a duplicate key — in particular at most one `artwork`
entry. -/

theorem objSet_keys_nodup {α β : Type} [DecidableEq α] (o : List (α × β)) (k : α) (v : β)
    (h : (o.map Prod.fst).Nodup) : ((objSet o k v).map Prod.fst).Nodup := by
  by_cases hm : k ∈ o.map Prod.fst
  · rw [objSet_keys_of_mem o k v hm]
    exact h
  · rw [objSet_keys_of_not_mem o k v hm, List.nodup_append]
    refine ⟨h, List.nodup_singleton k, ?_⟩
    intro a ha hb
    simp only [List.mem_singleton] at hb
    subst hb
    exact hm ha

theorem fromEntries_keys_nodup {α β : Type} [DecidableEq α] (l : List (α × β)) :
    ((fromEntries l).map Prod.fst).Nodup := by
  suffices haux : ∀ (l o : List (α × β)), (o.map Prod.fst).Nodup →
      ((l.foldl (fun o p => objSet o p.1 p.2) o).map Prod.fst).Nodup by
    exact haux l [] (by simp)
  intro l
  induction l with
  | nil => intro o h; simpa
  | cons p l ih =>
      intro o h
      simp only [List.foldl_cons]
      exact ih _ (objSet_keys_nodup o p.1 p.2 h)

/-- C7 (amended): only picture types 0 and 3 produce artwork; a produced
FLAC artwork value is `data:<mime>;base64,<base64>` where `<mime>` is
whatever MIME string is stored in the file (not necessarily png/jpeg)
and the payload part uses only base64 characters; an MP4 `covr` value
matches the spec regex exactly when its payload is non-empty (an empty
payload leaves nothing after `base64,` and fails the regex as well);
and a metadata map assembled by property assignment has duplicate-free
keys, hence at most one artwork entry. -/
theorem artwork_shape :
    (∀ data, bytesToInt (data.take 4) 8 true ≠ 0 → bytesToInt (data.take 4) 8 true ≠ 3 →
      flacProcessPicture data = none) ∧
    (∀ data s, flacProcessPicture data = some s →
      ∃ mime b64, s = "data:" ++ mime ++ ";base64," ++ b64 ∧
        ∀ ch ∈ b64.toList, ch ∈ base64Alphabet ∨ ch = '=') ∧
    (∀ (flag : Int) (payload : List Nat),
      matchesArtworkRegex (mp4CovrValue flag payload) = true ↔ payload ≠ []) ∧
    (∀ entries : List (TagKey × JSValue), ((fromEntries entries).map Prod.fst).Nodup) := by
  refine ⟨?_, ?_, ?_, fun entries => fromEntries_keys_nodup entries⟩
  · intro data h0 h3
    unfold flacProcessPicture
    rw [if_pos ⟨h0, h3⟩]
  · intro data s h
    unfold flacProcessPicture at h
    split at h
    · exact absurd h (by simp)
    · simp only [Option.some.injEq] at h
      refine ⟨flacMime data, bytesToBase64 (flacPictureBytes data), h.symm, ?_⟩
      intro ch hch
      exact b64Chunks_ok _ ch hch
  · intro flag payload
    constructor
    · intro hm hnil
      subst hnil
      by_cases hf : flag = 14
      · rw [hf] at hm
        rw [show mp4CovrValue 14 [] = "data:image/png;base64," from rfl] at hm
        exact absurd hm (by decide)
      · rw [show mp4CovrValue flag [] = "data:image/jpeg;base64," from by
          unfold mp4CovrValue
          rw [if_neg hf]
          rfl] at hm
        exact absurd hm (by decide)
    · intro hne
      have hb64ne : (b64Chunks payload).isEmpty = false :=
        List.isEmpty_eq_false.mpr (b64Chunks_ne_nil payload hne)
      have hall : (b64Chunks payload).all
          (fun ch => decide (ch ∈ base64Alphabet ∨ ch = '=')) = true := by
        rw [List.all_eq_true]
        intro ch hch
        exact decide_eq_true (b64Chunks_ok payload ch hch)
      unfold mp4CovrValue matchesArtworkRegex
      by_cases hf : flag = 14
      · rw [if_pos hf]
        have hdata : ("data:image/" ++ "png" ++ ";base64," ++ bytesToBase64 payload).toList
            = "data:image/png;base64,".toList ++ b64Chunks payload := rfl
        rw [hdata, stripPrefixList_append]
        dsimp only
        rw [hb64ne, hall]
        rfl
      · rw [if_neg hf]
        have hdata : ("data:image/" ++ "jpeg" ++ ";base64," ++ bytesToBase64 payload).toList
            = "data:image/jpeg;base64,".toList ++ b64Chunks payload := rfl
        have hnopng : stripPrefixList "data:image/png;base64,".toList
            ("data:image/jpeg;base64,".toList ++ b64Chunks payload) = none := rfl
        rw [hdata, hnopng, stripPrefixList_append]
        dsimp only
        rw [hb64ne, hall]
        rfl

/-- C7 (witness): the amended theorem evaluated at a type-1 FLAC block
(skipped), a one-byte PNG `covr` payload (matches the regex), and the
empty `covr` payload (fails it). -/
theorem artwork_shape_witness :
    flacProcessPicture [0, 0, 0, 1] = none ∧
    matchesArtworkRegex (mp4CovrValue 14 [171]) = true ∧
    ¬matchesArtworkRegex (mp4CovrValue 14 []) = true := by
  refine ⟨?_, ?_, ?_⟩
  · exact artwork_shape.1 [0, 0, 0, 1] (by decide) (by decide)
  · exact (artwork_shape.2.2.1 14 [171]).mpr (by decide)
  · intro hm
    exact absurd ((artwork_shape.2.2.1 14 []).mp hm) (by simp)

/-- C7 (counterexample): a FLAC picture block of type 3 whose stored MIME
type is `image/gif` — the produced artwork value does not match the spec
regex, which only allows png and jpeg. -/
theorem flac_artwork_gif_escapes_regex :
    flacProcessPicture
        ([0, 0, 0, 3] ++ [0, 0, 0, 9] ++ [105, 109, 97, 103, 101, 47, 103, 105, 102] ++
          [0, 0, 0, 0] ++ [0, 0, 0, 0, 0, 0, 0, 0, 0, 0, 0, 0, 0, 0, 0, 0] ++
          [0, 0, 0, 1] ++ [171])
      = some "data:image/gif;base64,qw==" ∧
    matchesArtworkRegex "data:image/gif;base64,qw==" = false := by
  exact ⟨by decide, by decide⟩

/-! ### `Buffer.bytesToString`

JavaScript strings are sequences of UTF-16 code units, modelled here as
`List Nat`.  Encoding 0 (ISO-8859-1) and encodings 1/2 (UTF-16) run
`_bytesToStr`, which stops at the first zero unit.  Encoding 3 (UTF-8)
decodes the whole byte list with `TextDecoder` and then applies
`.replace(/\0.*$/g, <empty>)`; since `.` does not match line
terminators and `$` only matches at the very end, that regex only strips
a NUL whose tail is free of line terminators. -/

/-- `_getDoubleBytes`: pair adjacent bytes into 16-bit units; a missing
final byte reads as 0 (JavaScript `undefined` coerced by the shift). -/
def getDoubleBytes : List Nat → Bool → List Nat
  | [], _ => []
  | [b], isBE => [if isBE then b <<< 8 else b]
  | b1 :: b2 :: rest, isBE =>
      (if isBE then (b1 <<< 8) ||| b2 else (b2 <<< 8) ||| b1) :: getDoubleBytes rest isBE

/-- WHATWG-style UTF-8 decoding to code points, with `U+FFFD` for
malformed sequences (the behaviour of `TextDecoder`).  The fuel argument
only drives the recursion; each step consumes at least one byte, so
fuel equal to the list length suffices. -/
def utf8DecodeAux : Nat → List Nat → List Nat
  | 0, _ => []
  | _ + 1, [] => []
  | fuel + 1, b :: rest =>
      if b < 128 then b :: utf8DecodeAux fuel rest
      else if b < 194 then 65533 :: utf8DecodeAux fuel rest
      else if b < 224 then
        match rest with
        | c :: rest2 =>
            if 128 ≤ c ∧ c < 192 then ((b - 192) * 64 + (c - 128)) :: utf8DecodeAux fuel rest2
            else 65533 :: utf8DecodeAux fuel rest
        | [] => [65533]
      else if b < 240 then
        match rest with
        | c1 :: c2 :: rest3 =>
            if (128 ≤ c1 ∧ c1 < 192) ∧ (128 ≤ c2 ∧ c2 < 192) ∧
                (b ≠ 224 ∨ 160 ≤ c1) ∧ (b ≠ 237 ∨ c1 < 160) then
              ((b - 224) * 4096 + (c1 - 128) * 64 + (c2 - 128)) :: utf8DecodeAux fuel rest3
            else 65533 :: utf8DecodeAux fuel rest
        | _ => 65533 :: utf8DecodeAux fuel rest
      else if b < 245 then
        match rest with
        | c1 :: c2 :: c3 :: rest4 =>
            if (128 ≤ c1 ∧ c1 < 192) ∧ (128 ≤ c2 ∧ c2 < 192) ∧ (128 ≤ c3 ∧ c3 < 192) ∧
                (b ≠ 240 ∨ 144 ≤ c1) ∧ (b ≠ 244 ∨ c1 < 144) then
              ((b - 240) * 262144 + (c1 - 128) * 4096 + (c2 - 128) * 64 + (c3 - 128))
                :: utf8DecodeAux fuel rest4
            else 65533 :: utf8DecodeAux fuel rest
        | _ => 65533 :: utf8DecodeAux fuel rest
      else 65533 :: utf8DecodeAux fuel rest

/-- UTF-8 decoding of a byte list. -/
def utf8Decode (l : List Nat) : List Nat := utf8DecodeAux l.length l

/-- Encode code points as UTF-16 code units (surrogate pairs above
`U+FFFF`), giving the unit sequence of the JavaScript string. -/
def utf16Units (cps : List Nat) : List Nat :=
  (cps.map (fun cp =>
    if cp < 65536 then [cp]
    else [55296 + (cp - 65536) / 1024, 56320 + (cp - 65536) % 1024])).flatten

/-- The code units `.` refuses to match: LF, CR, LS, PS. -/
def lineTerminator (x : Nat) : Bool := x = 10 || x = 13 || x = 8232 || x = 8233

/-- `.replace(/\0.*$/g, <empty>)`: truncate at the leftmost NUL whose
entire tail is free of line terminators; otherwise leave the string
unchanged. -/
def jsStripNulTail : List Nat → List Nat
  | [] => []
  | c :: rest =>
      if c = 0 ∧ rest.all (fun x => !lineTerminator x) then []
      else c :: jsStripNulTail rest

/-- `Buffer.bytesToString` producing the code-unit sequence of the
returned JavaScript string. -/
def bytesToStringCU (bytes : List Nat) (encoding : Nat) : List Nat :=
  match encoding with
  | 1 => bytesToStr (getDoubleBytes (bytes.drop 2)
      (decide (bytes[0]? = some 254 ∧ bytes[1]? = some 255)))
  | 2 => bytesToStr (getDoubleBytes bytes true)
  | 3 => jsStripNulTail (utf16Units (utf8Decode bytes))
  | _ => bytesToStr bytes

theorem bytesToStr_eq_takeWhile : ∀ l : List Nat, bytesToStr l = l.takeWhile (fun b => b != 0) := by
  intro l
  induction l with
  | nil => rfl
  | cons b rest ih =>
      by_cases hb : b = 0
      · subst hb
        simp [bytesToStr, List.takeWhile_cons]
      · simp [bytesToStr, List.takeWhile_cons, hb, ih]

theorem jsStripNulTail_clean :
    ∀ (a b : List Nat), 0 ∉ a → (∀ x ∈ b, lineTerminator x = false) →
      jsStripNulTail (a ++ 0 :: b) = a := by
  intro a
  induction a with
  | nil =>
      intro b _ hb
      have hall : b.all (fun x => !lineTerminator x) = true := by
        rw [List.all_eq_true]
        intro x hx
        rw [hb x hx]
        rfl
      simp [jsStripNulTail, hall]
  | cons x a ih =>
      intro b hx hb
      have hxne : x ≠ 0 := fun hh => hx (by simp [hh])
      rw [List.cons_append]
      show jsStripNulTail (x :: (a ++ 0 :: b)) = x :: a
      simp only [jsStripNulTail]
      rw [if_neg (fun hh => hxne hh.1)]
      rw [ih b (fun hh => hx (by simp [hh])) hb]

/-- C8 (amended): for ISO-8859-1 and both UTF-16 modes the result is
exactly the decode of the units strictly before the first NUL; for UTF-8
the decoded string is stripped at the first NUL only when no line
terminator follows it — a NUL followed by a newline survives. -/
theorem bytesToString_nul_strip :
    (∀ bytes, bytesToStringCU bytes 0 = bytes.takeWhile (fun b => b != 0)) ∧
    (∀ bytes, bytesToStringCU bytes 1
      = (getDoubleBytes (bytes.drop 2)
          (decide (bytes[0]? = some 254 ∧ bytes[1]? = some 255))).takeWhile
            (fun u => u != 0)) ∧
    (∀ bytes, bytesToStringCU bytes 2
      = (getDoubleBytes bytes true).takeWhile (fun u => u != 0)) ∧
    (∀ bytes a b, utf16Units (utf8Decode bytes) = a ++ 0 :: b → 0 ∉ a →
      (∀ x ∈ b, lineTerminator x = false) → bytesToStringCU bytes 3 = a) := by
  refine ⟨?_, ?_, ?_, ?_⟩
  · intro bytes
    exact bytesToStr_eq_takeWhile bytes
  · intro bytes
    exact bytesToStr_eq_takeWhile _
  · intro bytes
    exact bytesToStr_eq_takeWhile _
  · intro bytes a b heq ha hb
    show jsStripNulTail (utf16Units (utf8Decode bytes)) = a
    rw [heq]
    exact jsStripNulTail_clean a b ha hb

/-- C8 (witness): the UTF-8 conjunct evaluated on `[0x61, 0x00, 0x62]` —
the NUL and the byte after it are stripped, leaving `"a"`. -/
theorem bytesToString_nul_strip_witness :
    utf16Units (utf8Decode [97, 0, 98]) = [97] ++ 0 :: [98] ∧
    bytesToStringCU [97, 0, 98] 3 = [97] :=
  ⟨by decide, bytesToString_nul_strip.2.2.2 [97, 0, 98] [97] [98]
    (by decide) (by decide) (by decide)⟩

/-- C8 (counterexample): on UTF-8 input `[0x61, 0x00, 0x0A]` the strip
regex cannot match (a line feed follows the NUL), so the NUL survives in
the returned string, which therefore is not the prefix before the NUL. -/
theorem bytesToString_utf8_nul_survives :
    bytesToStringCU [97, 0, 10] 3 = [97, 0, 10] ∧
    (0 : Nat) ∈ bytesToStringCU [97, 0, 10] 3 ∧
    bytesToStringCU [97, 0, 10] 3 ≠ [97] :=
  ⟨by decide, by decide, by decide⟩

/-! ### Un-synchronisation (`FileReader.unsynchBuffer`)

The source copies the `[offset, offset+size)` slice, runs an in-place
`splice` loop that removes a zero byte directly after a `0xFF` byte
(continuing after the removed element), and reassembles the buffer
around the transformed slice. -/

/-- The `splice` loop of `unsynchBuffer`: at index `i`, when
`data[i] = 0xFF` and `data[i+1] = 0x00`, remove index `i+1`; in either
case continue at `i+1`. -/
def spliceLoop (i : Nat) (data : List Nat) : List Nat :=
  if _h : i + 1 < data.length then
    if data.getD i 0 = 255 ∧ data.getD (i + 1) 0 = 0 then
      spliceLoop (i + 1) (data.eraseIdx (i + 1))
    else spliceLoop (i + 1) data
  else data
termination_by data.length - i
decreasing_by
  · rw [List.length_eraseIdx_of_lt (by omega)]
    omega
  · omega

/-- Recursive form of the transform: drop a zero directly after `0xFF`
and continue after the dropped pair. -/
def unsynchList : List Nat → List Nat
  | [] => []
  | [b] => [b]
  | b1 :: b2 :: rest =>
      if b1 = 255 ∧ b2 = 0 then 255 :: unsynchList rest
      else b1 :: unsynchList (b2 :: rest)
termination_by l => l.length

/-- Claim-side helper: walk the region remembering the previous byte. -/
def removeZeroAfterFFAux (prev : Nat) : List Nat → List Nat
  | [] => []
  | b :: rest =>
      if b = 0 ∧ prev = 255 then removeZeroAfterFFAux b rest
      else b :: removeZeroAfterFFAux b rest

/-- Claim-side transform: remove every zero byte whose predecessor in the
original region is `0xFF` (the first byte has no predecessor). -/
def removeZeroAfterFF : List Nat → List Nat
  | [] => []
  | b :: rest => b :: removeZeroAfterFFAux b rest

/-- The ID3v2 un-synchronisation encoder: insert a zero byte after every
`0xFF` byte. -/
def insertZeroAfterFF : List Nat → List Nat
  | [] => []
  | b :: rest =>
      if b = 255 then 255 :: 0 :: insertZeroAfterFF rest
      else b :: insertZeroAfterFF rest

/-- `FileReader.unsynchBuffer buffer offset length`: returns the rebuilt
buffer and the new length of the transformed region.  A `length` of 0 is
falsy in JavaScript, so it means "to the end of the buffer", like an
omitted length. -/
def unsynchBuffer (buffer : List Nat) (offset : Nat) (length? : Option Nat) :
    List Nat × Nat :=
  let size := match length? with
    | some l => if l = 0 then buffer.length - offset else l
    | none => buffer.length - offset
  let data := (buffer.drop offset).take size
  let newData := spliceLoop 0 data
  (buffer.take offset ++ newData ++ buffer.drop (offset + size), newData.length)

theorem unsynchList_short (l : List Nat) (h : l.length ≤ 1) : unsynchList l = l := by
  match l with
  | [] => simp [unsynchList]
  | [b] => simp [unsynchList]
  | b1 :: b2 :: rest => simp at h

theorem spliceLoop_eq (i : Nat) (data : List Nat) :
    spliceLoop i data = data.take i ++ unsynchList (data.drop i) := by
  induction i, data using spliceLoop.induct with
  | case1 i data h hc ih =>
      rw [spliceLoop]
      rw [dif_pos h, if_pos hc]
      rw [ih]
      have hi : i < data.length := by omega
      have hgi : data.getD i 0 = data[i] := List.getD_eq_getElem data 0 hi
      have hgi1 : data.getD (i + 1) 0 = data[i + 1] := List.getD_eq_getElem data 0 h
      have hde : data.eraseIdx (i + 1) = data.take (i + 1) ++ data.drop (i + 2) :=
        List.eraseIdx_eq_take_drop_succ data (i + 1)
      have hlen : (data.take (i + 1)).length = i + 1 := by
        rw [List.length_take]
        omega
      have htake : (data.eraseIdx (i + 1)).take (i + 1) = data.take (i + 1) := by
        rw [hde, List.take_left' hlen]
      have hdrop : (data.eraseIdx (i + 1)).drop (i + 1) = data.drop (i + 2) := by
        rw [hde, List.drop_left' hlen]
      rw [htake, hdrop]
      have hd1 : data.drop i = data[i] :: data.drop (i + 1) := List.drop_eq_getElem_cons hi
      have hd2 : data.drop (i + 1) = data[i + 1] :: data.drop (i + 2) :=
        List.drop_eq_getElem_cons h
      rw [hd1, hd2]
      have hv1 : data[i] = 255 := by rw [← hgi]; exact hc.1
      have hv2 : data[i + 1] = 0 := by rw [← hgi1]; exact hc.2
      rw [hv1, hv2]
      rw [show unsynchList (255 :: 0 :: data.drop (i + 2))
          = 255 :: unsynchList (data.drop (i + 2)) by rw [unsynchList]; rw [if_pos ⟨rfl, rfl⟩]]
      have hg255 : data[i]? = some 255 := by
        rw [List.getElem?_eq_getElem hi, hv1]
      rw [List.take_succ, hg255, List.append_assoc]
      rfl
  | case2 i data h hc ih =>
      rw [spliceLoop]
      rw [dif_pos h, if_neg hc]
      rw [ih]
      have hi : i < data.length := by omega
      have hd1 : data.drop i = data[i] :: data.drop (i + 1) := List.drop_eq_getElem_cons hi
      have hun : unsynchList (data[i] :: data.drop (i + 1))
          = data[i] :: unsynchList (data.drop (i + 1)) := by
        cases hd : data.drop (i + 1) with
        | nil => simp [unsynchList]
        | cons y t =>
            have hy : y = data[i + 1] := by
              have hdd := List.drop_eq_getElem_cons h
              rw [hd] at hdd
              exact (List.cons.injEq _ _ _ _ ▸ hdd).1
            have hno : ¬(data[i] = 255 ∧ y = 0) := by
              intro hcc
              apply hc
              refine ⟨?_, ?_⟩
              · rw [List.getD_eq_getElem data 0 hi]
                exact hcc.1
              · rw [List.getD_eq_getElem data 0 h, ← hy]
                exact hcc.2
            rw [unsynchList, if_neg hno]
      have hgetel : data[i]? = some data[i] := List.getElem?_eq_getElem hi
      rw [hd1, hun, List.take_succ, hgetel, List.append_assoc]
      rfl
  | case3 i data h =>
      rw [spliceLoop, dif_neg h]
      have hshort : (data.drop i).length ≤ 1 := by
        rw [List.length_drop]
        omega
      rw [unsynchList_short _ hshort, List.take_append_drop]

theorem removeAux_eq_unsynch :
    ∀ l : List Nat, ∀ b, (b = 255 → l.head? ≠ some 0) →
      removeZeroAfterFFAux b l = unsynchList l := by
  intro l
  induction l using unsynchList.induct with
  | case1 => intro b _; simp [removeZeroAfterFFAux, unsynchList]
  | case2 x =>
      intro b hb
      rw [removeZeroAfterFFAux]
      rw [if_neg ?_]
      · simp [removeZeroAfterFFAux, unsynchList]
      · rintro ⟨hx0, hb255⟩
        exact hb hb255 (by rw [hx0]; rfl)
  | case3 b1 b2 rest hc ih =>
      intro b hb
      obtain ⟨h1, h2⟩ := hc
      subst h1; subst h2
      rw [removeZeroAfterFFAux, if_neg (by rintro ⟨h, _⟩; exact absurd h (by norm_num))]
      rw [removeZeroAfterFFAux, if_pos ⟨rfl, rfl⟩]
      rw [unsynchList, if_pos ⟨rfl, rfl⟩]
      rw [ih 0 (by intro h; exact absurd h (by norm_num))]
  | case4 b1 b2 rest hc ih =>
      intro b hb
      rw [removeZeroAfterFFAux]
      rw [if_neg ?_]
      · rw [unsynchList, if_neg hc]
        rw [ih b1 ?_]
        intro h1 h2
        exact hc ⟨h1, by injection h2⟩
      · rintro ⟨h10, _⟩
        exact hb (by assumption) (by rw [h10]; rfl)

theorem unsynchList_eq_removeZeroAfterFF (l : List Nat) :
    unsynchList l = removeZeroAfterFF l := by
  cases l with
  | nil => simp [unsynchList, removeZeroAfterFF]
  | cons b rest =>
      rw [removeZeroAfterFF]
      cases rest with
      | nil => simp [unsynchList, removeZeroAfterFFAux]
      | cons y t =>
          by_cases hc : b = 255 ∧ y = 0
          · obtain ⟨h1, h2⟩ := hc
            subst h1; subst h2
            rw [unsynchList, if_pos ⟨rfl, rfl⟩]
            rw [removeZeroAfterFFAux, if_pos ⟨rfl, rfl⟩]
            rw [removeAux_eq_unsynch t 0 (by intro h; exact absurd h (by norm_num))]
          · rw [unsynchList, if_neg hc]
            rw [removeAux_eq_unsynch (y :: t) b
              (fun hb255 h => hc ⟨hb255, by injection h⟩)]

theorem unsynch_insert_round_trip :
    ∀ l : List Nat, unsynchList (insertZeroAfterFF l) = l := by
  intro l
  induction l with
  | nil => simp [insertZeroAfterFF, unsynchList]
  | cons b rest ih =>
      by_cases hb : b = 255
      · subst hb
        rw [insertZeroAfterFF, if_pos rfl]
        rw [unsynchList, if_pos ⟨rfl, rfl⟩, ih]
      · rw [insertZeroAfterFF, if_neg hb]
        cases hins : insertZeroAfterFF rest with
        | nil =>
            rw [hins] at ih
            have hrest : rest = [] := by simpa [unsynchList] using ih.symm
            subst hrest
            simp [unsynchList, insertZeroAfterFF]
        | cons y t =>
            rw [unsynchList, if_neg (by rintro ⟨h255, _⟩; exact hb h255)]
            rw [← hins, ih]

/-- C9: `unsynchBuffer` removes exactly the zero bytes of the selected
region that directly follow a `0xFF` byte, preserves the prefix and
suffix verbatim, and returns the new region length; applying it to a
region encoded by inserting a zero after every `0xFF` recovers the
original region. -/
theorem unsynchBuffer_spec :
    (∀ (buffer : List Nat) (offset len : Nat), 0 < len →
      unsynchBuffer buffer offset (some len)
        = (buffer.take offset ++ removeZeroAfterFF ((buffer.drop offset).take len) ++
            buffer.drop (offset + len),
           (removeZeroAfterFF ((buffer.drop offset).take len)).length)) ∧
    (∀ (pre region post : List Nat), region ≠ [] →
      unsynchBuffer (pre ++ insertZeroAfterFF region ++ post) pre.length
          (some (insertZeroAfterFF region).length)
        = (pre ++ region ++ post, region.length)) := by
  have hcore : ∀ data : List Nat, spliceLoop 0 data = removeZeroAfterFF data := by
    intro data
    rw [spliceLoop_eq 0 data]
    simp only [List.take_zero, List.drop_zero, List.nil_append]
    exact unsynchList_eq_removeZeroAfterFF data
  have hsome : ∀ (buffer : List Nat) (offset l : Nat), l ≠ 0 →
      unsynchBuffer buffer offset (some l)
        = (buffer.take offset ++ spliceLoop 0 ((buffer.drop offset).take l) ++
            buffer.drop (offset + l),
           (spliceLoop 0 ((buffer.drop offset).take l)).length) := by
    intro buffer offset l hl
    unfold unsynchBuffer
    dsimp only
    rw [if_neg hl]
  constructor
  · intro buffer offset len hlen
    rw [hsome buffer offset len (by omega)]
    rw [hcore]
  · intro pre region post hne
    have hinsne : insertZeroAfterFF region ≠ [] := by
      cases region with
      | nil => exact absurd rfl hne
      | cons b rest =>
          rw [insertZeroAfterFF]
          split <;> simp
    have hlenpos : 0 < (insertZeroAfterFF region).length :=
      List.length_pos.mpr hinsne
    rw [hsome _ _ _ (by omega)]
    rw [hcore]
    have hdrop : (pre ++ insertZeroAfterFF region ++ post).drop pre.length
        = insertZeroAfterFF region ++ post := by
      rw [List.append_assoc, List.drop_left]
    have htake : ((pre ++ insertZeroAfterFF region ++ post).drop pre.length).take
        (insertZeroAfterFF region).length = insertZeroAfterFF region := by
      rw [hdrop, List.take_left]
    have htakepre : (pre ++ insertZeroAfterFF region ++ post).take pre.length = pre := by
      rw [List.append_assoc, List.take_left]
    have hdropall : (pre ++ insertZeroAfterFF region ++ post).drop
        (pre.length + (insertZeroAfterFF region).length) = post := by
      rw [List.drop_left' (by rw [List.length_append])]
    rw [htake, htakepre, hdropall]
    rw [← unsynchList_eq_removeZeroAfterFF, unsynch_insert_round_trip]

/-- C9 (witness): the theorem evaluated on the buffer
`[1, 255, 0, 2, 3]`, un-synchronising the middle three bytes, and on the
round trip of the region `[255, 7]`. -/
theorem unsynchBuffer_spec_witness :
    unsynchBuffer [1, 255, 0, 2, 3] 1 (some 3)
      = ([1] ++ removeZeroAfterFF [255, 0, 2] ++ [3],
         (removeZeroAfterFF [255, 0, 2]).length) ∧
    unsynchBuffer ([9] ++ insertZeroAfterFF [255, 7] ++ [8]) 1
        (some (insertZeroAfterFF [255, 7]).length)
      = ([9] ++ [255, 7] ++ [8], 2) := by
  constructor
  · exact unsynchBuffer_spec.1 [1, 255, 0, 2, 3] 1 3 (by decide)
  · exact unsynchBuffer_spec.2 [9] [255, 7] [8] (by decide)

/-! ### File-provider read traces

`FLACReader.processBlock` loads a 4-byte block header and then exactly
the block body declared in it; `MP4Reader.processAtom` loads an 8-byte
atom header, possibly an 8-byte extended size, and then exactly one
content of one atom (containers are then walked inside that buffer without
further reads).  The traces below record every `(offset, size)` request
made to the file provider; the early-exit checks of the parsers can only
cut a trace short, never add requests. -/

/-- The bytes `[off, off + len)` of a file. -/
def fileSlice (f : List Nat) (off len : Nat) : List Nat := (f.drop off).take len

/-- `Buffer.readBitsInByte` for an 8-bit byte: the value of `length` bits
starting at bit `start` counted from the most significant bit. -/
def readBitsInByte (byte start length : Nat) : Nat :=
  (byte >>> (8 - start - length)) % 2 ^ length

/-- The 24-bit size field of the FLAC block header at `p`. -/
def flacDeclaredSize (f : List Nat) (p : Nat) : Int :=
  bytesToInt (fileSlice f (p + 1) 3) 8 true

/-- The is-last bit of the FLAC block header at `p`. -/
def flacIsLast (f : List Nat) (p : Nat) : Bool :=
  decide (readBitsInByte ((fileSlice f p 4).headD 0) 0 1 = 1)

/-- All `(offset, size)` read requests of the FLAC block loop starting at
`p`. -/
def flacReadTrace : Nat → List Nat → Nat → List (Nat × Int)
  | 0, _, _ => []
  | fuel + 1, f, pos =>
      (pos, (4 : Int)) :: (pos + 4, flacDeclaredSize f pos) ::
        (if flacIsLast f pos then []
         else flacReadTrace fuel f (pos + 4 + (flacDeclaredSize f pos).toNat))

/-- The 4-byte size field of the MP4 atom header at `p`. -/
def mp4Size4 (f : List Nat) (p : Nat) : Int := bytesToInt (fileSlice f p 4) 8 true

/-- The 8-byte extended size field at `p`. -/
def mp4Size8 (f : List Nat) (p : Nat) : Int := bytesToInt (fileSlice f p 8) 8 true

/-- The content length of the atom whose header starts at `p`: declared
size minus the 8- or 16-byte header. -/
def mp4AtomContentSize (f : List Nat) (p : Nat) : Int :=
  if mp4Size4 f p = 1 then mp4Size8 f (p + 8) - 16 else mp4Size4 f p - 8

/-- All `(offset, size)` read requests of the MP4 top-level atom loop
starting at `p`. -/
def mp4ReadTrace : Nat → List Nat → Nat → List (Nat × Int)
  | 0, _, _ => []
  | fuel + 1, f, pos =>
      if mp4Size4 f pos = 1 then
        if mp4Size8 f (pos + 8) = 0 then [(pos, (8 : Int)), (pos + 8, (8 : Int))]
        else (pos, (8 : Int)) :: (pos + 8, (8 : Int)) ::
          (pos + 16, mp4Size8 f (pos + 8) - 16) ::
          mp4ReadTrace fuel f (pos + 16 + (mp4Size8 f (pos + 8) - 16).toNat)
      else if mp4Size4 f pos = 0 then [(pos, (8 : Int))]
      else (pos, (8 : Int)) :: (pos + 8, mp4Size4 f pos - 8) ::
        mp4ReadTrace fuel f (pos + 8 + (mp4Size4 f pos - 8).toNat)

theorem bytesToIntAux_small_bound :
    ∀ (le : List Nat) (idx : Nat) (acc : Nat), (∀ b ∈ le, b < 256) →
      acc < 16777216 → idx + le.length ≤ 3 →
      ∃ m : Nat, m < 16777216 ∧ bytesToIntAux 8 idx (Int.ofNat acc) le = Int.ofNat m := by
  intro le
  induction le with
  | nil =>
      intro idx acc _ hacc _
      exact ⟨acc, hacc, rfl⟩
  | cons b rest ih =>
      intro idx acc hb hacc hlen
      have hblt : b < 256 := hb b (by simp)
      have hidx : idx ≤ 2 := by
        simp only [List.length_cons] at hlen
        omega
      have hshift : b <<< (idx * 8) < 16777216 := by
        rw [Nat.shiftLeft_eq]
        have hp : (2 : Nat) ^ (idx * 8) ≤ 2 ^ 16 := Nat.pow_le_pow_right (by norm_num) (by omega)
        calc b * 2 ^ (idx * 8) ≤ 255 * 2 ^ 16 := Nat.mul_le_mul (by omega) hp
          _ < 16777216 := by norm_num
      have hstep : jsOr (Int.ofNat acc) (jsShiftLeft (Int.ofNat b) (idx * 8))
          = Int.ofNat (acc ||| b <<< (idx * 8)) := by
        rw [jsShiftLeft_small b (idx * 8) (by omega) (by omega) (by omega),
          jsOr_small acc (b <<< (idx * 8)) (by omega) (by omega)]
      have hor : acc ||| b <<< (idx * 8) < 16777216 := by
        have h24 : (16777216 : Nat) = 2 ^ 24 := by norm_num
        rw [h24] at hacc hshift ⊢
        exact Nat.or_lt_two_pow hacc hshift
      simp only [bytesToIntAux]
      rw [hstep]
      exact ih (idx + 1) (acc ||| b <<< (idx * 8)) (fun x hx => hb x (by simp [hx])) hor
        (by simp only [List.length_cons] at hlen; omega)

theorem bytesToInt_le3_bound (l : List Nat) (hb : ∀ b ∈ l, b < 256) (hlen : l.length ≤ 3) :
    0 ≤ bytesToInt l 8 true ∧ bytesToInt l 8 true < 16777216 := by
  obtain ⟨m, hm, heq⟩ := bytesToIntAux_small_bound l.reverse 0 0
    (fun b h => hb b (List.mem_reverse.mp h)) (by norm_num)
    (by rw [List.length_reverse]; omega)
  unfold bytesToInt
  rw [if_pos rfl, show (0 : Int) = Int.ofNat 0 from rfl, heq]
  constructor
  · exact Int.ofNat_nonneg m
  · rw [show ((16777216 : Int)) = Int.ofNat 16777216 from rfl]
    exact Int.ofNat_lt.mpr hm

theorem flacDeclaredSize_bound (f : List Nat) (hf : ∀ b ∈ f, b < 256) (p : Nat) :
    0 ≤ flacDeclaredSize f p ∧ flacDeclaredSize f p < 16777216 := by
  apply bytesToInt_le3_bound
  · intro b hbm
    exact hf b (List.mem_of_mem_drop (List.mem_of_mem_take hbm))
  · unfold fileSlice
    calc ((f.drop (p + 1)).take 3).length ≤ 3 := by
          rw [List.length_take]
          omega

theorem flacReadTrace_granularity :
    ∀ (fuel : Nat) (f : List Nat) (pos : Nat) (r : Nat × Int),
      r ∈ flacReadTrace fuel f pos →
      r.2 = 4 ∨ ∃ p, r.1 = p + 4 ∧ r.2 = flacDeclaredSize f p := by
  intro fuel
  induction fuel with
  | zero => intro f pos r h; simp [flacReadTrace] at h
  | succ fuel ih =>
      intro f pos r h
      simp only [flacReadTrace, List.mem_cons] at h
      rcases h with h | h | h
      · left; rw [h]
      · right; exact ⟨pos, by rw [h], by rw [h]⟩
      · split at h
        · simp at h
        · exact ih f _ r h

theorem mp4ReadTrace_granularity :
    ∀ (fuel : Nat) (f : List Nat) (pos : Nat) (r : Nat × Int),
      r ∈ mp4ReadTrace fuel f pos →
      r.2 = 8 ∨ ∃ p, r.2 = mp4AtomContentSize f p ∧ (r.1 = p + 8 ∨ r.1 = p + 16) := by
  intro fuel
  induction fuel with
  | zero => intro f pos r h; simp [mp4ReadTrace] at h
  | succ fuel ih =>
      intro f pos r h
      simp only [mp4ReadTrace] at h
      split at h
      · rename_i h1
        split at h
        · simp only [List.mem_cons, List.not_mem_nil, or_false] at h
          rcases h with h | h <;> (left; rw [h])
        · simp only [List.mem_cons] at h
          rcases h with h | h | h | h
          · left; rw [h]
          · left; rw [h]
          · right
            refine ⟨pos, ?_, Or.inr (by rw [h])⟩
            rw [h, mp4AtomContentSize, if_pos h1]
          · exact ih f _ r h
      · split at h
        · simp only [List.mem_cons, List.not_mem_nil, or_false] at h
          left; rw [h]
        · rename_i h1 h0
          simp only [List.mem_cons] at h
          rcases h with h | h | h
          · left; rw [h]
          · right
            refine ⟨pos, ?_, Or.inl (by rw [h])⟩
            rw [h, mp4AtomContentSize, if_neg h1]
          · exact ih f _ r h

/-- C10: every file-provider request of the FLAC block loop is either the
4-byte block header or exactly the size declared by the block just read
(which is below 2^24 for byte-valued files), and every request of the
MP4 atom loop is either an 8-byte header read or exactly the
declared content of one atom — the parsers load one metadata block or atom at a
time and never more. -/
theorem reader_trace_block_granularity :
    (∀ (fuel : Nat) (f : List Nat) (pos : Nat) (r : Nat × Int),
      r ∈ flacReadTrace fuel f pos →
      r.2 = 4 ∨ ∃ p, r.1 = p + 4 ∧ r.2 = flacDeclaredSize f p) ∧
    (∀ (f : List Nat), (∀ b ∈ f, b < 256) → ∀ p,
      0 ≤ flacDeclaredSize f p ∧ flacDeclaredSize f p < 16777216) ∧
    (∀ (fuel : Nat) (f : List Nat) (pos : Nat) (r : Nat × Int),
      r ∈ mp4ReadTrace fuel f pos →
      r.2 = 8 ∨ ∃ p, r.2 = mp4AtomContentSize f p ∧ (r.1 = p + 8 ∨ r.1 = p + 16)) :=
  ⟨flacReadTrace_granularity, flacDeclaredSize_bound, mp4ReadTrace_granularity⟩

/-- C10 (witness): the theorem evaluated on a one-block FLAC layout
(header at 0, is-last set, declared size 2) and a two-atom MP4 layout. -/
theorem reader_trace_block_granularity_witness :
    ((4, (2 : Int)) ∈ flacReadTrace 5 [128, 0, 0, 2, 9, 9] 0 ∧
      ((4, (2 : Int)).2 = 4 ∨ ∃ p, (4, (2 : Int)).1 = p + 4 ∧
        (4, (2 : Int)).2 = flacDeclaredSize [128, 0, 0, 2, 9, 9] p)) ∧
    ((∀ b ∈ [128, 0, 0, 2, 9, 9], b < 256) ∧
      (0 ≤ flacDeclaredSize [128, 0, 0, 2, 9, 9] 0 ∧
        flacDeclaredSize [128, 0, 0, 2, 9, 9] 0 < 16777216)) ∧
    ((8, (4 : Int)) ∈ mp4ReadTrace 5 [0, 0, 0, 12, 102, 116, 121, 112, 1, 2, 3, 4, 0, 0, 0, 0] 0 ∧
      ((8, (4 : Int)).2 = 8 ∨ ∃ p,
        (8, (4 : Int)).2 = mp4AtomContentSize [0, 0, 0, 12, 102, 116, 121, 112, 1, 2, 3, 4, 0, 0, 0, 0] p ∧
        ((8, (4 : Int)).1 = p + 8 ∨ (8, (4 : Int)).1 = p + 16))) := by
  refine ⟨⟨by decide, ?_⟩, ⟨by decide, ?_⟩, ⟨by decide, ?_⟩⟩
  · exact reader_trace_block_granularity.1 5 [128, 0, 0, 2, 9, 9] 0 (4, 2) (by decide)
  · exact reader_trace_block_granularity.2.1 [128, 0, 0, 2, 9, 9] (by decide) 0
  · exact reader_trace_block_granularity.2.2 5
      [0, 0, 0, 12, 102, 116, 121, 112, 1, 2, 3, 4, 0, 0, 0, 0] 0 (8, 4) (by decide)

end AudioMetadata
